import Mathlib

set_option maxRecDepth 8000

/-!
Verification development for the cryptctl key-escrow service.

The definitions below are a shallow embedding, in Lean, of the Go source of
the repository: the key database and record model (`keydb/db.go`,
`keydb/record.go`), the TTLV codec (`kmip/ttlv`), and the KMIP / RPC client
paths (`keyserv/kmip_client.go`, `keyserv/rpc_svc.go`).  Conventions used
throughout:

* Go machine integers (`int`, `int32`, `int64`) are modelled as `Int`; where
  Go performs a wrapping conversion (for example the `int32(...)` cast in the
  TTLV encoder) the wrap is written out explicitly as `% 2^32`.
* Byte strings are `List Nat` (each element intended `< 256`; encoders only
  produce such elements, decoders never depend on the bound).
* Go wall-clock reads (`time.Now()`) become an explicit `now : Int` parameter
  carrying Unix seconds, matching the second granularity at which the source
  compares times (`.Unix()`).
* Go maps become association lists with distinct keys; where a theorem needs
  the distinct-key property of a Go map it takes it as a hypothesis.
* Fallible Go functions returning `(value, error)` become `Except`/`Option`
  results; a Go runtime panic on out-of-range slicing is modelled as a
  distinguished error value.
-/

namespace Cryptctl

/-! ## Association-list helpers modelling Go map lookup and assignment -/

/-- Lookup in an association list, modelling Go `m[k]` (comma-ok form). -/
def lookupA {α : Type} (m : List (String × α)) (k : String) : Option α :=
  match m with
  | [] => none
  | (k2, v) :: rest => if k2 = k then some v else lookupA rest k

/-- Assignment in an association list, modelling Go `m[k] = v`. -/
def setA {α : Type} (m : List (String × α)) (k : String) (v : α) : List (String × α) :=
  match m with
  | [] => [(k, v)]
  | (k2, v2) :: rest => if k2 = k then (k2, v) :: rest else (k2, v2) :: setA rest k v

theorem lookupA_setA_self {α : Type} (m : List (String × α)) (k : String) (v : α) :
    lookupA (setA m k v) k = some v := by
  induction m with
  | nil => simp [setA, lookupA]
  | cons p rest ih =>
    obtain ⟨k2, v2⟩ := p
    by_cases h : k2 = k <;> simp [setA, lookupA, h, ih]

theorem lookupA_setA_ne {α : Type} (m : List (String × α)) (k k2 : String) (v : α)
    (h : k ≠ k2) : lookupA (setA m k v) k2 = lookupA m k2 := by
  induction m with
  | nil => simp [setA, lookupA, h]
  | cons p rest ih =>
    obtain ⟨k3, v3⟩ := p
    by_cases h3 : k3 = k
    · subst h3
      simp [setA, lookupA, h]
    · simp only [setA, if_neg h3]
      by_cases h4 : k3 = k2 <;> simp [lookupA, h4, ih]

theorem lookupA_eq_some_of_mem {α : Type} {m : List (String × α)} {k : String} {v : α}
    (hnd : (m.map Prod.fst).Nodup) (hmem : (k, v) ∈ m) : lookupA m k = some v := by
  induction m with
  | nil => simp at hmem
  | cons p rest ih =>
    obtain ⟨k2, v2⟩ := p
    simp only [List.map_cons, List.nodup_cons, List.mem_map] at hnd
    rcases List.mem_cons.1 hmem with h | h
    · cases h
      simp [lookupA]
    · have hne : k2 ≠ k := by
        rintro rfl
        exact hnd.1 ⟨(k2, v), h, rfl⟩
      simp [lookupA, hne, ih hnd.2 h]

theorem mem_of_lookupA_eq_some {α : Type} {m : List (String × α)} {k : String} {v : α}
    (h : lookupA m k = some v) : (k, v) ∈ m := by
  induction m with
  | nil => simp [lookupA] at h
  | cons p rest ih =>
    obtain ⟨k2, v2⟩ := p
    by_cases h2 : k2 = k
    · subst h2
      simp only [lookupA, if_pos rfl, Option.some.injEq] at h
      have hv : v2 = v := by
        have h2 := h
        simpa using h2
      subst hv
      exact List.mem_cons_self _ _
    · simp only [lookupA, if_neg h2] at h
      exact List.mem_cons_of_mem _ (ih h)

end Cryptctl

namespace Keydb

open Cryptctl

/-! ## Entities of the key database (`keydb/record.go`) -/

/-- AliveMessage is a heartbeat from a computer actively using an encryption
key (`keydb/record.go`).  `Timestamp` is Unix seconds. -/
structure AliveMessage where
  Hostname : String
  IP : String
  Timestamp : Int
deriving DecidableEq, Inhabited

/-- PendingCommand is a time-restricted command issued by the administrator
(`keydb/record.go`).  `ValidFrom` is Unix seconds and `Validity` a duration in
seconds (the source compares times through `.Unix()`, i.e. at second
granularity).  The source stores `Content` as an `interface` holding the
serialised command; the embedding uses `String`. -/
structure PendingCommand where
  ValidFrom : Int
  Validity : Int
  IP : String
  Content : String
  SeenByClient : Bool
  ClientResult : String
deriving DecidableEq, Inhabited

/-- Record is one key-database entry (`keydb/record.go`).  Go maps are
association lists, byte strings are `List Nat`, `CreationTime` is Unix
seconds. -/
structure Record where
  ID : String
  Version : Int
  CreationTime : Int
  Key : List Nat
  UUID : String
  MountPoint : String
  MountOptions : List String
  MaxActive : Int
  AliveIntervalSec : Int
  AliveCount : Int
  LastRetrieval : AliveMessage
  AliveMessages : List (String × List AliveMessage)
  PendingCommands : List (String × List PendingCommand)
deriving DecidableEq, Inhabited

/-- ValidateUUID (`keydb/record.go`): returns an error message only when the
input is empty or contains characters outside `[a-zA-Z0-9-]` (the `RegexUUID`
pattern); `none` models the `nil` error.  The character test runs over the
string's characters, as Go's regexp does. -/
def ValidateUUID (s : String) : Option String :=
  if s = "" then some "ValidateUUID: UUID must not be empty"
  else if !(s.data.all fun c => c.isAlphanum || c == '-') then
    some "ValidateUUID: illegal characters appeared in UUID"
  else none

/-- IsHostAlive (`keydb/record.go`): a holder is alive when the final entry of
its heartbeat sequence is no older than `AliveIntervalSec * AliveCount`
seconds.  Absent holders and (should-not-happen) empty sequences report not
alive with a zero message. -/
def Record.IsHostAlive (now : Int) (rec : Record) (hostIP : String) :
    Bool × AliveMessage :=
  match lookupA rec.AliveMessages hostIP with
  | none => (false, default)
  | some beats =>
    match beats.getLast? with
    | none => (false, default)
    | some finalMessage =>
      (decide (finalMessage.Timestamp ≥
        now - rec.AliveIntervalSec * rec.AliveCount), finalMessage)

/-- RemoveDeadHosts (`keydb/record.go`): delete every holder that is not
alive, returning the surviving record and each dead holder's final message.
The Go map iteration becomes a filter over the association list. -/
def Record.RemoveDeadHosts (now : Int) (rec : Record) :
    Record × List (String × AliveMessage) :=
  let deadFinalMessage :=
    (rec.AliveMessages.filter fun p => !(rec.IsHostAlive now p.1).1).map
      fun p => (p.1, (rec.IsHostAlive now p.1).2)
  ({ rec with AliveMessages :=
      rec.AliveMessages.filter fun p => (rec.IsHostAlive now p.1).1 },
   deadFinalMessage)

/-- IsValid (`keydb/record.go`): a pending command is valid only while
`ValidFrom + Validity` lies in the future (second granularity, as in the
source's `.Unix()` comparison). -/
def PendingCommand.IsValid (now : Int) (cmd : PendingCommand) : Bool :=
  decide (cmd.ValidFrom + cmd.Validity > now)

/-- RemoveExpiredPendingCommands (`keydb/record.go`): keep only still-valid
commands in every bucket and drop buckets that end up empty. -/
def Record.RemoveExpiredPendingCommands (now : Int) (rec : Record) : Record :=
  { rec with PendingCommands :=
      rec.PendingCommands.filterMap fun p =>
        let remaining := p.2.filter (PendingCommand.IsValid now)
        if remaining.isEmpty then none else some (p.1, remaining) }

/-- AddPendingCommand (`keydb/record.go`): sweep expired commands, then append
the new command to the target IP's bucket (creating the bucket if needed). -/
def Record.AddPendingCommand (now : Int) (rec : Record) (ip : String)
    (cmd : PendingCommand) : Record :=
  let rec1 := rec.RemoveExpiredPendingCommands now
  { rec1 with
    PendingCommands :=
      setA rec1.PendingCommands ip ((lookupA rec1.PendingCommands ip).getD [] ++ [cmd]) }

/-- UpdateLastRetrieval (`keydb/record.go`): remove dead holders first; when
the maximum-active check applies and the surviving holder count has reached
`MaxActive` the update is refused, otherwise the heartbeat becomes the last
retrieval and opens a fresh one-element message sequence for its IP.  The Go
method mutates the receiver; the embedding returns the updated record. -/
def Record.UpdateLastRetrieval (now : Int) (rec : Record)
    (latestBeat : AliveMessage) (checkMaxActive : Bool) :
    Bool × Record × List (String × AliveMessage) :=
  let sw := rec.RemoveDeadHosts now
  let rec1 := sw.1
  if checkMaxActive ∧ rec.MaxActive > 0 ∧
      (rec1.AliveMessages.length : Int) ≥ rec.MaxActive then
    (false, rec1, sw.2)
  else
    (true,
     { rec1 with
        LastRetrieval := latestBeat,
        AliveMessages := setA rec1.AliveMessages latestBeat.IP [latestBeat] },
     sw.2)

/-- UpdateAliveMessage (`keydb/record.go`): only an IP already present may
heartbeat; its sequence gains the new message and keeps at most `AliveCount`
entries (dropping the oldest).  No liveness check is performed here. -/
def Record.UpdateAliveMessage (rec : Record) (latestBeat : AliveMessage) :
    Bool × Record :=
  match lookupA rec.AliveMessages latestBeat.IP with
  | none => (false, rec)
  | some beats =>
    let newBeats :=
      if (beats.length : Int) ≥ rec.AliveCount then
        beats.drop ((beats.length : Int) - rec.AliveCount + 1).toNat ++ [latestBeat]
      else beats ++ [latestBeat]
    (true, { rec with AliveMessages := setA rec.AliveMessages latestBeat.IP newBeats })

/-- Validate (`keydb/record.go`): the attribute checks in source order; `none`
models the `nil` error.  Go `len` on a string counts bytes, hence
`utf8ByteSize`. -/
def Record.Validate (rec : Record) : Option String :=
  if rec.UUID.utf8ByteSize < 3 then some "UUID looks too short"
  else if rec.Key.length < 3 then some "Key looks too short"
  else if rec.MountPoint.utf8ByteSize < 2 then some "Mount point looks too short"
  else if rec.AliveIntervalSec < 1 then
    some "AliveIntervalSec should be a positive integer"
  else if rec.AliveCount < 1 then
    some "AliveCount should be a positive integer"
  else none

/-! ## The key database (`keydb/db.go`)

The in-memory state is the `Records` map; disk persistence and the RW lock are
not part of the embedding (every claim is about the serialised in-memory
transition).  One aliasing fact of the source is modelled explicitly: the Go
map value copied out of `db.Records` shares its `AliveMessages` map with the
stored record, so the dead-host sweep performed by `UpdateLastRetrieval` is
visible in the stored record even on the rejected path, where `upsert` is not
called. -/

/-- Records of a database, keyed by UUID (`DB.Records` in `keydb/db.go`). -/
abbrev DBRecords := List (String × Record)

/-- Select (`keydb/db.go`): per requested UUID, classify as missing, rejected
or granted, updating the stored record as `UpdateLastRetrieval` does.  On the
rejected path the stored record still loses its dead holders through the
shared `AliveMessages` map (see the section comment). -/
def DBSelect (now : Int) (db : DBRecords) (aliveMessage : AliveMessage)
    (checkMaxActive : Bool) (uuids : List String) :
    DBRecords × List (String × Record) × List String × List String :=
  uuids.foldl
    (fun st uuid =>
      let (db, found, rejected, missing) := st
      match lookupA db uuid with
      | some record =>
        let (ok, rec2, _) := record.UpdateLastRetrieval now aliveMessage checkMaxActive
        if ok then (setA db uuid rec2, found ++ [(uuid, rec2)], rejected, missing)
        else (setA db uuid rec2, found, rejected ++ [uuid], missing)
      | none => (db, found, rejected, missing ++ [uuid]))
    (db, [], [], [])

/-- UpdateAliveMessage at database level (`keydb/db.go`): apply the record
method per UUID, collecting the rejected ones (missing record or unknown
holder). -/
def DBUpdateAliveMessage (db : DBRecords) (latest : AliveMessage)
    (uuids : List String) : DBRecords × List String :=
  uuids.foldl
    (fun st uuid =>
      let (db, rejected) := st
      match lookupA db uuid with
      | some record =>
        let (ok, rec2) := record.UpdateAliveMessage latest
        if ok then (setA db uuid rec2, rejected)
        else (db, rejected ++ [uuid])
      | none => (db, rejected ++ [uuid]))
    (db, [])

/-- Survivors of the dead-host sweep, as `Record.RemoveDeadHosts` computes
them; named so the admission theorem and its witness share one spelling. -/
def sweptMessages (now : Int) (rec : Record) : List (String × List AliveMessage) :=
  rec.AliveMessages.filter fun p => (rec.IsHostAlive now p.1).1

/-- Record stored for a granted retrieval: last retrieval set to the heartbeat,
holder's sequence reset to the one-element sequence holding it. -/
def grantedRecord (now : Int) (rec : Record) (hb : AliveMessage) : Record :=
  { rec with
    LastRetrieval := hb,
    AliveMessages := setA (sweptMessages now rec) hb.IP [hb] }

theorem updateLastRetrieval_eq (now : Int) (rec : Record) (hb : AliveMessage)
    (cma : Bool) :
    rec.UpdateLastRetrieval now hb cma =
      (if cma ∧ rec.MaxActive > 0 ∧
          ((sweptMessages now rec).length : Int) ≥ rec.MaxActive
       then (false, { rec with AliveMessages := sweptMessages now rec },
             (rec.RemoveDeadHosts now).2)
       else (true, grantedRecord now rec hb, (rec.RemoveDeadHosts now).2)) := by
  simp only [Record.UpdateLastRetrieval, Record.RemoveDeadHosts, sweptMessages,
    grantedRecord]

theorem dbSelect_single (now : Int) (db : DBRecords) (hb : AliveMessage)
    (cma : Bool) (uuid : String) (rec : Record)
    (hlook : lookupA db uuid = some rec) :
    DBSelect now db hb cma [uuid] =
      (if (rec.UpdateLastRetrieval now hb cma).1 then
        (setA db uuid (rec.UpdateLastRetrieval now hb cma).2.1,
         [(uuid, (rec.UpdateLastRetrieval now hb cma).2.1)], [], [])
       else
        (setA db uuid (rec.UpdateLastRetrieval now hb cma).2.1, [], [uuid], [])) := by
  simp only [DBSelect, List.foldl, hlook]
  obtain ⟨ok, rec2, dead⟩ := rec.UpdateLastRetrieval now hb cma
  cases ok <;> simp

theorem isHostAlive_of_lookup (now : Int) (rec : Record) (ip : String)
    (beats : List AliveMessage) (m : AliveMessage)
    (hlk : lookupA rec.AliveMessages ip = some beats)
    (hm : beats.getLast? = some m) :
    rec.IsHostAlive now ip =
      (decide (m.Timestamp ≥ now - rec.AliveIntervalSec * rec.AliveCount), m) := by
  simp only [Record.IsHostAlive, hlk, hm]

theorem mem_sweptMessages_iff (now : Int) (rec : Record)
    (hnd : (rec.AliveMessages.map Prod.fst).Nodup)
    (hne : ∀ p ∈ rec.AliveMessages, p.2 ≠ []) (p : String × List AliveMessage) :
    p ∈ sweptMessages now rec ↔
      p ∈ rec.AliveMessages ∧ ∃ m, p.2.getLast? = some m ∧
        ¬(now - m.Timestamp > rec.AliveIntervalSec * rec.AliveCount) := by
  unfold sweptMessages
  rw [List.mem_filter]
  constructor
  · rintro ⟨hmem, halive⟩
    refine ⟨hmem, ?_⟩
    have hlk : lookupA rec.AliveMessages p.1 = some p.2 :=
      lookupA_eq_some_of_mem hnd hmem
    have hsome : p.2.getLast?.isSome := List.getLast?_isSome.mpr (hne p hmem)
    obtain ⟨m, hm⟩ := Option.isSome_iff_exists.mp hsome
    rw [isHostAlive_of_lookup now rec p.1 p.2 m hlk hm] at halive
    simp only [decide_eq_true_eq] at halive
    exact ⟨m, hm, by omega⟩
  · rintro ⟨hmem, m, hm, hnold⟩
    refine ⟨hmem, ?_⟩
    have hlk : lookupA rec.AliveMessages p.1 = some p.2 :=
      lookupA_eq_some_of_mem hnd hmem
    rw [isHostAlive_of_lookup now rec p.1 p.2 m hlk hm]
    simp only [decide_eq_true_eq]
    omega

/-- C1: admission control of `Select`.  First the dead-host sweep removes
exactly the holders whose last heartbeat is older than
`AliveIntervalSec * AliveCount` seconds; then, when the maximum-active check
applies, `MaxActive > 0` and the surviving holder count has reached
`MaxActive`, the UUID is rejected and the stored record keeps its last
retrieval and alive messages apart from the sweep; otherwise the UUID is
granted, the last retrieval becomes the heartbeat and the holder's message
sequence becomes the one-element sequence holding it.  The hypotheses state
the Go-map facts: distinct holder keys and (per the source invariant)
non-empty heartbeat sequences. -/
theorem select_admission_c1
    (now : Int) (db : DBRecords) (uuid : String) (rec : Record)
    (hb : AliveMessage) (checkMaxActive : Bool)
    (hlook : lookupA db uuid = some rec)
    (hnd : (rec.AliveMessages.map Prod.fst).Nodup)
    (hne : ∀ p ∈ rec.AliveMessages, p.2 ≠ []) :
    (∀ p, p ∈ sweptMessages now rec ↔
      p ∈ rec.AliveMessages ∧ ∃ m, p.2.getLast? = some m ∧
        ¬(now - m.Timestamp > rec.AliveIntervalSec * rec.AliveCount)) ∧
    (if checkMaxActive ∧ rec.MaxActive > 0 ∧
        ((sweptMessages now rec).length : Int) ≥ rec.MaxActive then
      DBSelect now db hb checkMaxActive [uuid] =
        (setA db uuid { rec with AliveMessages := sweptMessages now rec },
         [], [uuid], [])
     else
      DBSelect now db hb checkMaxActive [uuid] =
        (setA db uuid (grantedRecord now rec hb),
         [(uuid, grantedRecord now rec hb)], [], [])) := by
  refine ⟨mem_sweptMessages_iff now rec hnd hne, ?_⟩
  rw [dbSelect_single now db hb checkMaxActive uuid rec hlook,
    updateLastRetrieval_eq]
  by_cases hc : checkMaxActive ∧ rec.MaxActive > 0 ∧
      ((sweptMessages now rec).length : Int) ≥ rec.MaxActive
  · simp [hc]
  · simp [hc]

/-- Concrete record for the admission witness: one live holder, cap 1. -/
def recW1 : Record :=
  { ID := "1", Version := 2, CreationTime := 0, Key := [1, 2, 3, 4],
    UUID := "uuu", MountPoint := "/mnt", MountOptions := [], MaxActive := 1,
    AliveIntervalSec := 1, AliveCount := 4,
    LastRetrieval := ⟨"h0", "ip0", 5⟩,
    AliveMessages := [("ip1", [⟨"h1", "ip1", 99⟩])], PendingCommands := [] }

/-- Database holding `recW1` under its UUID. -/
def dbW1 : DBRecords := [("uuu", recW1)]

/-- Candidate heartbeat from a second host at time 100. -/
def hbW1 : AliveMessage := ⟨"h2", "ip2", 100⟩

/-- Witness for the admission theorem: at time 100 the sole holder is still
live, the cap of 1 is reached, and the select is classified rejected with the
record unchanged apart from the (empty) sweep. -/
theorem select_admission_c1_witness :
    lookupA dbW1 "uuu" = some recW1 ∧
    DBSelect 100 dbW1 hbW1 true ["uuu"] =
      (setA dbW1 "uuu" { recW1 with AliveMessages := sweptMessages 100 recW1 },
       [], ["uuu"], []) := by
  refine ⟨rfl, ?_⟩
  have h := (select_admission_c1 100 dbW1 "uuu" recW1 hbW1 true rfl
    (by decide) (by decide)).2
  rw [if_pos (by decide)] at h
  exact h

/-- Concrete record for the heartbeat-after-expiry counterexample: holder ip1
last heartbeat at time 0, expiry window 1 × 4 = 4 seconds. -/
def recC2 : Record :=
  { ID := "1", Version := 2, CreationTime := 0, Key := [1, 2, 3, 4],
    UUID := "u1", MountPoint := "/mnt", MountOptions := [], MaxActive := 2,
    AliveIntervalSec := 1, AliveCount := 4,
    LastRetrieval := ⟨"host1", "ip1", 0⟩,
    AliveMessages := [("ip1", [⟨"host1", "ip1", 0⟩])], PendingCommands := [] }

/-- Database holding `recC2`. -/
def dbC2 : DBRecords := [("u1", recC2)]

/-- Heartbeat from the long-silent holder at time 100. -/
def hbC2 : AliveMessage := ⟨"host1", "ip1", 100⟩

/-- C2 counterexample: holder ip1's last heartbeat (time 0) is far older than
`AliveIntervalSec * AliveCount` at time 100, yet its next report is accepted —
the rejected list is empty and ip1 remains in the holder set with the new
message appended.  This matches the source's own test comment: updating alive
messages does not clear dead hosts, only `UpdateLastRetrieval` does. -/
theorem reportAlive_expiry_c2_counterexample :
    (100 - (0 : Int) > recC2.AliveIntervalSec * recC2.AliveCount) ∧
    (DBUpdateAliveMessage dbC2 hbC2 ["u1"]).2 = [] ∧
    (lookupA (DBUpdateAliveMessage dbC2 hbC2 ["u1"]).1 "u1").map
        (fun r => lookupA r.AliveMessages "ip1") =
      some (some [⟨"host1", "ip1", 0⟩, hbC2]) := by
  decide

/-- C2 amended: `ReportAlive` (database `UpdateAliveMessage`) performs no
expiry check at all.  A heartbeat is rejected exactly when the holder IP is
not present in the record's `AliveMessages` (only holders that already
retrieved the key may heartbeat), and rejection does not remove anything; an
accepted heartbeat — including one from an expired-but-still-present holder —
is appended to the holder's sequence, which keeps the `AliveCount` most recent
entries. -/
theorem reportAlive_c2_amended (db : DBRecords) (uuid : String) (rec : Record)
    (hb : AliveMessage) (hlook : lookupA db uuid = some rec)
    (hcnt : 1 ≤ rec.AliveCount) :
    match lookupA rec.AliveMessages hb.IP with
    | none => DBUpdateAliveMessage db hb [uuid] = (db, [uuid])
    | some bs =>
      DBUpdateAliveMessage db hb [uuid] =
        (setA db uuid
          { rec with
            AliveMessages := setA rec.AliveMessages hb.IP
              ((bs ++ [hb]).drop (bs.length + 1 - rec.AliveCount.toNat)) }, []) := by
  cases hbs : lookupA rec.AliveMessages hb.IP with
  | none =>
    simp [DBUpdateAliveMessage, hlook, Record.UpdateAliveMessage, hbs]
  | some bs =>
    have hdrop :
        (if (bs.length : Int) ≥ rec.AliveCount then
          bs.drop ((bs.length : Int) - rec.AliveCount + 1).toNat ++ [hb]
         else bs ++ [hb]) =
        (bs ++ [hb]).drop (bs.length + 1 - rec.AliveCount.toNat) := by
      by_cases hge : (bs.length : Int) ≥ rec.AliveCount
      · rw [if_pos hge, List.drop_append_eq_append_drop]
        have h1 : ((bs.length : Int) - rec.AliveCount + 1).toNat =
            bs.length + 1 - rec.AliveCount.toNat := by omega
        have h2 : bs.length + 1 - rec.AliveCount.toNat - bs.length = 0 := by omega
        rw [h1, h2]
        simp
      · rw [if_neg hge]
        have h0 : bs.length + 1 - rec.AliveCount.toNat = 0 := by omega
        rw [h0, List.drop_zero]
    simp only [DBUpdateAliveMessage, List.foldl, hlook,
      Record.UpdateAliveMessage, hbs, hdrop]
    simp

/-- Record for the amended-C2 witness: holder ip1 with a full history of 4. -/
def recW2 : Record :=
  { recC2 with
    AliveMessages :=
      [("ip1", [⟨"host1", "ip1", 0⟩, ⟨"host1", "ip1", 1⟩,
                ⟨"host1", "ip1", 2⟩, ⟨"host1", "ip1", 3⟩])] }

/-- Database holding `recW2`. -/
def dbW2 : DBRecords := [("u1", recW2)]

/-- Witness for the amended C2 theorem at a concrete input: the full history
rolls, keeping the 4 most recent messages. -/
theorem reportAlive_c2_amended_witness :
    lookupA dbW2 "u1" = some recW2 ∧ (1 : Int) ≤ recW2.AliveCount ∧
    DBUpdateAliveMessage dbW2 hbC2 ["u1"] =
      (setA dbW2 "u1"
        { recW2 with
          AliveMessages := setA recW2.AliveMessages "ip1"
            [⟨"host1", "ip1", 1⟩, ⟨"host1", "ip1", 2⟩,
             ⟨"host1", "ip1", 3⟩, hbC2] }, []) := by
  refine ⟨rfl, by decide, ?_⟩
  exact reportAlive_c2_amended dbW2 "u1" recW2 hbC2 rfl (by decide)

/-- The record-validation predicate exactly as claim C8 words it: uuid
non-empty and matching `[A-Za-z0-9-]+`, mount point of length at least 2,
alive interval and count at least 1, and nothing else. -/
def specValidateC8 (rec : Record) : Prop :=
  rec.UUID ≠ "" ∧ (rec.UUID.data.all fun c => c.isAlphanum || c == '-') = true ∧
  2 ≤ rec.MountPoint.utf8ByteSize ∧ 1 ≤ rec.AliveIntervalSec ∧
  1 ≤ rec.AliveCount

/-- Record with a well-formed two-character UUID: the spec predicate accepts
it, `Validate` rejects it (`len(UUID) < 3`). -/
def recC8a : Record :=
  { ID := "", Version := 2, CreationTime := 0, Key := [1, 2, 3, 4],
    UUID := "ab", MountPoint := "/mnt", MountOptions := [], MaxActive := 0,
    AliveIntervalSec := 1, AliveCount := 1, LastRetrieval := default,
    AliveMessages := [], PendingCommands := [] }

/-- Same record with a long UUID and a long key: `Validate` accepts it. -/
def recC8c : Record := { recC8a with UUID := "aaaa" }

/-- Same record with an empty key: `Validate` rejects it although no claimed
field changed. -/
def recC8b : Record := { recC8c with Key := [] }

/-- C8 counterexample: `recC8a` satisfies every condition the claim lists yet
fails validation (the source checks `len(UUID) ≥ 3`, not the regex), and
`recC8b`/`recC8c` differ only in the `Key` field yet validate differently, so
a field outside the claimed list does affect the outcome. -/
theorem validate_c8_counterexample :
    specValidateC8 recC8a ∧ recC8a.Validate ≠ none ∧
    recC8b = { recC8c with Key := [] } ∧
    recC8c.Validate = none ∧ recC8b.Validate ≠ none := by
  refine ⟨⟨by decide, by decide, by decide, by decide, by decide⟩,
    by decide, rfl, by decide, by decide⟩

/-- C8 amended: `Record.Validate` succeeds exactly when the UUID is at least
3 bytes, the key at least 3 bytes, the mount point at least 2 bytes, and the
alive interval and count at least 1; the UUID character class is not checked
by `Validate` but by the separate `ValidateUUID`, which succeeds exactly on
non-empty strings over `[A-Za-z0-9-]`. -/
theorem validate_c8_amended (rec : Record) :
    (rec.Validate = none ↔
      3 ≤ rec.UUID.utf8ByteSize ∧ 3 ≤ rec.Key.length ∧
      2 ≤ rec.MountPoint.utf8ByteSize ∧ 1 ≤ rec.AliveIntervalSec ∧
      1 ≤ rec.AliveCount) ∧
    (∀ s : String, ValidateUUID s = none ↔
      (s ≠ "" ∧ (s.data.all fun c => c.isAlphanum || c == '-') = true)) := by
  constructor
  · unfold Record.Validate
    split_ifs with h1 h2 h3 h4 h5 <;> simp <;> omega
  · intro s
    unfold ValidateUUID
    split_ifs with h1 h2 <;> simp_all
    intro x hx
    rcases Bool.eq_false_or_eq_true x.isAlphanum with ht | hf
    · exact Or.inl ht
    · exact Or.inr (h2 x hx hf)

theorem lookupA_sweepPending_notmem (now : Int)
    (m : List (String × List PendingCommand)) (ip2 : String)
    (h : ip2 ∉ m.map Prod.fst) :
    lookupA (m.filterMap fun p =>
      let remaining := p.2.filter (PendingCommand.IsValid now)
      if remaining.isEmpty then none else some (p.1, remaining)) ip2 = none := by
  induction m with
  | nil => simp [lookupA]
  | cons p rest ih =>
    obtain ⟨k, cmds⟩ := p
    simp only [List.map_cons, List.mem_cons, not_or] at h
    have hk : k ≠ ip2 := fun he => h.1 he.symm
    by_cases hemp : (cmds.filter (PendingCommand.IsValid now)).isEmpty
    · simp only [List.filterMap_cons, hemp, if_pos]
      exact ih h.2
    · simp only [List.filterMap_cons, hemp, if_neg]
      simp only [lookupA, if_neg hk]
      exact ih h.2

theorem lookupA_sweepPending (now : Int)
    (m : List (String × List PendingCommand))
    (hnd : (m.map Prod.fst).Nodup) (ip2 : String) :
    lookupA (m.filterMap fun p =>
      let remaining := p.2.filter (PendingCommand.IsValid now)
      if remaining.isEmpty then none else some (p.1, remaining)) ip2 =
    (let f := ((lookupA m ip2).getD []).filter (PendingCommand.IsValid now)
     if f = [] then none else some f) := by
  induction m with
  | nil => simp [lookupA]
  | cons p rest ih =>
    obtain ⟨k, cmds⟩ := p
    simp only [List.map_cons, List.nodup_cons] at hnd
    by_cases hk : k = ip2
    · subst hk
      by_cases hemp : (cmds.filter (PendingCommand.IsValid now)).isEmpty
      · simp only [List.filterMap_cons, hemp, if_pos]
        rw [lookupA_sweepPending_notmem now rest k hnd.1]
        simp only [lookupA, if_pos rfl, Option.getD_some]
        have : cmds.filter (PendingCommand.IsValid now) = [] :=
          List.isEmpty_iff.mp hemp
        simp [this]
      · simp only [List.filterMap_cons, hemp, if_neg]
        simp only [lookupA, if_pos rfl, Option.getD_some]
        have : ¬(cmds.filter (PendingCommand.IsValid now) = []) :=
          fun he => hemp (List.isEmpty_iff.mpr he)
        simp [this]
    · by_cases hemp : (cmds.filter (PendingCommand.IsValid now)).isEmpty
      · simp only [List.filterMap_cons, hemp, if_pos]
        rw [ih hnd.2]
        simp [lookupA, hk]
      · simp only [List.filterMap_cons, hemp, if_neg]
        simp only [lookupA, if_neg hk]
        rw [ih hnd.2]

/-- C9: a pending command is valid exactly while the current time is earlier
than `ValidFrom + Validity` (at the Unix-second granularity of the source's
comparison), and `AddPendingCommand ip cmd` first drops every expired command
across all IP buckets — deleting buckets that end up empty — and then appends
`cmd` to `ip`'s bucket.  The second conjunct states the resulting
command map extensionally, per looked-up IP.  The hypothesis is the Go-map
fact that bucket keys are distinct. -/
theorem pendingCommands_c9 (now : Int) (rec : Record) (ip : String)
    (cmd : PendingCommand)
    (hnd : (rec.PendingCommands.map Prod.fst).Nodup) :
    (∀ c : PendingCommand, c.IsValid now = true ↔ now < c.ValidFrom + c.Validity) ∧
    (∀ ip2, lookupA (rec.AddPendingCommand now ip cmd).PendingCommands ip2 =
      if ip2 = ip then
        some (((lookupA rec.PendingCommands ip2).getD []).filter
          (PendingCommand.IsValid now) ++ [cmd])
      else
        (let f := ((lookupA rec.PendingCommands ip2).getD []).filter
          (PendingCommand.IsValid now)
         if f = [] then none else some f)) := by
  constructor
  · intro c
    unfold PendingCommand.IsValid
    simp only [decide_eq_true_eq]
  · intro ip2
    unfold Record.AddPendingCommand Record.RemoveExpiredPendingCommands
    by_cases hip : ip2 = ip
    · subst hip
      rw [if_pos rfl]
      simp only
      rw [lookupA_setA_self]
      rw [lookupA_sweepPending now rec.PendingCommands hnd ip2]
      by_cases hf : ((lookupA rec.PendingCommands ip2).getD []).filter
          (PendingCommand.IsValid now) = []
      · simp [hf]
      · simp [hf]
    · rw [if_neg hip]
      simp only
      rw [lookupA_setA_ne _ _ _ _ (fun he => hip he.symm)]
      exact lookupA_sweepPending now rec.PendingCommands hnd ip2

/-- Record for the C9 witness: one bucket with a valid and an expired command,
one bucket holding only an expired command. -/
def recW9 : Record :=
  { recC8a with
    PendingCommands :=
      [("1.1.1.1", [⟨0, 200, "1.1.1.1", "c1", false, ""⟩,
                    ⟨0, 10, "1.1.1.1", "c2", false, ""⟩]),
       ("2.2.2.2", [⟨0, 10, "2.2.2.2", "c3", false, ""⟩])] }

/-- Command added by the C9 witness. -/
def cmdW9 : PendingCommand := ⟨100, 50, "3.3.3.3", "c4", false, ""⟩

/-- Witness for the pending-command theorem at time 100: the expired commands
(validity windows ending at 10) disappear, the empty 2.2.2.2 bucket is
deleted, and the new command lands in the 3.3.3.3 bucket. -/
theorem pendingCommands_c9_witness :
    ((recW9.PendingCommands.map Prod.fst).Nodup) ∧
    (cmdW9.IsValid 100 = true ↔ (100 : Int) < cmdW9.ValidFrom + cmdW9.Validity) ∧
    lookupA (recW9.AddPendingCommand 100 "3.3.3.3" cmdW9).PendingCommands
      "1.1.1.1" = some [⟨0, 200, "1.1.1.1", "c1", false, ""⟩] ∧
    lookupA (recW9.AddPendingCommand 100 "3.3.3.3" cmdW9).PendingCommands
      "2.2.2.2" = none ∧
    lookupA (recW9.AddPendingCommand 100 "3.3.3.3" cmdW9).PendingCommands
      "3.3.3.3" = some [cmdW9] := by
  have h := pendingCommands_c9 100 recW9 "3.3.3.3" cmdW9 (by decide)
  refine ⟨by decide, h.1 cmdW9, ?_, ?_, ?_⟩
  · have h1 := h.2 "1.1.1.1"
    rw [if_neg (by decide)] at h1
    exact h1.trans (by decide)
  · have h2 := h.2 "2.2.2.2"
    rw [if_neg (by decide)] at h2
    exact h2.trans (by decide)
  · have h3 := h.2 "3.3.3.3"
    rw [if_pos rfl] at h3
    exact h3.trans (by decide)

/-! ## Listing records (`DB.List`, `RecordSlice` in `keydb/db.go`) -/

/-- Less of `RecordSlice` (`keydb/db.go`): record `a` sorts before `b` when
its last-retrieval timestamp is non-zero and larger. -/
def RecordSliceLess (a b : Record) : Bool :=
  decide (a.LastRetrieval.Timestamp ≠ 0 ∧
    a.LastRetrieval.Timestamp > b.LastRetrieval.Timestamp)

/-- Insert a record into a list sorted by `RecordSliceLess`.  The Go code
delegates to `sort.Sort`, whose only guarantee is a permutation that is
sorted with respect to `Less`; a comparison sort realises that contract. -/
def orderedInsertRec (x : Record) : List Record → List Record
  | [] => [x]
  | y :: rest =>
    if RecordSliceLess x y then x :: y :: rest else y :: orderedInsertRec x rest

/-- Comparison sort realising the `sort.Sort(sortedRecords)` call. -/
def sortRecords (l : List Record) : List Record :=
  l.foldr orderedInsertRec []

/-- List (`keydb/db.go`): copy every stored record with the `Key` field
cleared, sort by latest usage, and leave the store untouched (the Go method
only reads `db.Records`; clearing `Key` happens on the copied loop variable).
The returned pair carries the unchanged store to make that frame property a
statement about this function. -/
def DBList (db : DBRecords) : List Record × DBRecords :=
  (sortRecords (db.map fun p => { p.2 with Key := [] }), db)

theorem perm_orderedInsertRec (x : Record) (l : List Record) :
    (orderedInsertRec x l).Perm (x :: l) := by
  induction l with
  | nil => exact List.Perm.refl _
  | cons y rest ih =>
    unfold orderedInsertRec
    by_cases h : RecordSliceLess x y
    · rw [if_pos h]
    · rw [if_neg h]
      exact (ih.cons y).trans (List.Perm.swap x y rest)

theorem perm_sortRecords (l : List Record) : (sortRecords l).Perm l := by
  induction l with
  | nil => exact List.Perm.refl _
  | cons y rest ih =>
    exact (perm_orderedInsertRec y (sortRecords rest)).trans (ih.cons y)

theorem recordSliceLess_trans_nonneg {a b c : Record}
    (hc : 0 ≤ c.LastRetrieval.Timestamp)
    (hba : RecordSliceLess b a = false) (hcb : RecordSliceLess c b = false) :
    RecordSliceLess c a = false := by
  simp only [RecordSliceLess, decide_eq_false_iff_not, not_and, not_lt] at *
  omega

theorem recordSliceLess_total {a b : Record} (h : RecordSliceLess a b = true) :
    RecordSliceLess b a = false := by
  simp only [RecordSliceLess, decide_eq_true_eq, decide_eq_false_iff_not,
    not_and, not_lt] at *
  omega

theorem sorted_orderedInsertRec (x : Record) (l : List Record)
    (hts : ∀ r ∈ l, 0 ≤ r.LastRetrieval.Timestamp)
    (hsorted : l.Pairwise fun a b => RecordSliceLess b a = false) :
    (orderedInsertRec x l).Pairwise fun a b => RecordSliceLess b a = false := by
  induction l with
  | nil => simp [orderedInsertRec]
  | cons y rest ih =>
    unfold orderedInsertRec
    rw [List.pairwise_cons] at hsorted
    by_cases h : RecordSliceLess x y
    · rw [if_pos h]
      refine List.Pairwise.cons ?_ (List.Pairwise.cons hsorted.1 hsorted.2)
      intro z hz
      rcases List.mem_cons.1 hz with rfl | hz2
      · exact recordSliceLess_total h
      · exact recordSliceLess_trans_nonneg (hts z (List.mem_cons_of_mem _ hz2))
          (recordSliceLess_total h) (hsorted.1 z hz2)
    · rw [if_neg h]
      refine List.Pairwise.cons ?_ (ih (fun r hr => hts r (List.mem_cons_of_mem _ hr)) hsorted.2)
      intro z hz
      have hz3 := (perm_orderedInsertRec x rest).mem_iff.mp hz
      rcases List.mem_cons.1 hz3 with rfl | hz4
      · exact Bool.not_eq_true _ ▸ h
      · exact hsorted.1 z hz4

theorem sorted_sortRecords (l : List Record)
    (hts : ∀ r ∈ l, 0 ≤ r.LastRetrieval.Timestamp) :
    (sortRecords l).Pairwise fun a b => RecordSliceLess b a = false := by
  induction l with
  | nil => simp [sortRecords]
  | cons y rest ih =>
    have hrest : ∀ r ∈ rest, 0 ≤ r.LastRetrieval.Timestamp :=
      fun r hr => hts r (List.mem_cons_of_mem _ hr)
    refine sorted_orderedInsertRec y (sortRecords rest) ?_ (ih hrest)
    intro r hr
    exact hrest r ((perm_sortRecords rest).mem_iff.mp hr)

/-- C10: `List` returns one copy of each stored record with the key material
cleared, in an order where no later record beats an earlier one under the
`RecordSlice` comparison (records with the largest non-zero last-retrieval
timestamp first), and the store itself is left unchanged.  The timestamp
hypothesis records that last-retrieval times are Unix timestamps
(non-negative), under which the Go `Less` is a valid sort order. -/
theorem list_records_c10 (db : DBRecords)
    (hts : ∀ p ∈ db, 0 ≤ p.2.LastRetrieval.Timestamp) :
    ((DBList db).1.Perm (db.map fun p => { p.2 with Key := [] })) ∧
    (∀ r ∈ (DBList db).1, r.Key = []) ∧
    ((DBList db).1.Pairwise fun a b => RecordSliceLess b a = false) ∧
    (DBList db).2 = db := by
  refine ⟨perm_sortRecords _, ?_, ?_, rfl⟩
  · intro r hr
    have hmem := (perm_sortRecords _).mem_iff.mp hr
    obtain ⟨p, _, rfl⟩ := List.mem_map.1 hmem
    rfl
  · refine sorted_sortRecords _ ?_
    intro r hr
    obtain ⟨p, hp, rfl⟩ := List.mem_map.1 hr
    exact hts p hp

/-- Database for the C10 witness: three records with timestamps 3, 1, 2 (as
in the repository's own `TestList`). -/
def dbW10 : DBRecords :=
  [("a", { recC8a with UUID := "aaa", LastRetrieval := ⟨"host1", "ip1", 3⟩ }),
   ("b", { recC8a with UUID := "bbb", LastRetrieval := ⟨"host1", "ip1", 1⟩ }),
   ("c", { recC8a with UUID := "ccc", LastRetrieval := ⟨"host1", "ip1", 2⟩ })]

/-- Witness for the listing theorem on `dbW10`; the sorted, key-cleared
output is computed by `decide` on the concrete database. -/
theorem list_records_c10_witness :
    (0 : Int) ≤ 3 ∧
    ((DBList dbW10).1.Perm (dbW10.map fun p => { p.2 with Key := [] })) ∧
    (∀ r ∈ (DBList dbW10).1, r.Key = []) ∧
    ((DBList dbW10).1.Pairwise fun a b => RecordSliceLess b a = false) ∧
    (DBList dbW10).2 = dbW10 := by
  refine ⟨by decide, ?_⟩
  exact list_records_c10 dbW10 (by decide)

end Keydb

namespace Ttlv

/-! ## The TTLV codec (`kmip/ttlv`)

The embedding follows the first (`Item`-typed, `ResetTyp`-calling) variant of
`dencode.go`, the one cited by the claims, together with `types.go`.  A TTLV
item is modelled as a sum over the seven concrete kinds plus `nilItem`, the
Go interface's nil value (a decoder can produce it); the bookkeeping `Typ`
and `Length` fields of the Go `TTL` struct are omitted because both codec
directions recompute them (`ResetTyp`, `GetLength`, the decoded header), so
item identity is tag plus value.  Byte buffers are `List Nat` whose capacity
equals their length, as holds for buffers assembled by `ReadFullTTLV` or
passed to `DecodeAny` directly; a Go slice-bounds panic on a truncated buffer
is therefore modelled by the `outOfRange` error. -/

/-- RoundUpTo8 (`kmip/ttlv/dencode.go`). -/
def RoundUpTo8 (n : Nat) : Nat := if n % 8 = 0 then n else n + (8 - n % 8)

/-- Big-endian byte string of width `k` for the value `v`; the value is
implicitly reduced modulo `256^k`, as Go's fixed-width `binary.Write` is. -/
def beBytes : Nat → Nat → List Nat
  | 0, _ => []
  | k + 1, v => beBytes k (v / 256) ++ [v % 256]

/-- Big-endian reading of a byte string (`binary.Read`). -/
def beToNat (bs : List Nat) : Nat := bs.foldl (fun a b => a * 256 + b) 0

/-- Two's-complement 32-bit pattern of an integer (the `int32(...)` cast). -/
def u32ofInt (v : Int) : Nat := (v % 4294967296).toNat

/-- Signed reading of a 32-bit pattern (`binary.Read` into an `int32`). -/
def int32OfU32 (u : Nat) : Int :=
  if u < 2147483648 then (u : Int) else (u : Int) - 4294967296

/-- Two's-complement 64-bit pattern of an integer (`int64` write). -/
def u64ofInt (v : Int) : Nat := (v % 18446744073709551616).toNat

/-- Signed reading of a 64-bit pattern (`binary.Read` into an `int64`). -/
def int64OfU64 (u : Nat) : Int :=
  if u < 9223372036854775808 then (u : Int)
  else (u : Int) - 18446744073709551616

/-- Tag of a TTLV item: three bytes (`types.go`). -/
structure Tag where
  b0 : Nat
  b1 : Nat
  b2 : Nat
deriving DecidableEq, Inhabited

/-- Wire bytes of a tag (`WriteTTTo` writes these three bytes). -/
def Tag.wire (t : Tag) : List Nat := [t.b0, t.b1, t.b2]

/-- A TTLV item: the seven concrete kinds of `types.go` plus the Go
interface's nil value.  `text` carries the string's UTF-8 bytes, `dateTime`
the Unix seconds (`time.Time` is written and read through `.Unix()`). -/
inductive Item where
  | nilItem : Item
  | struct : Tag → List Item → Item
  | integer : Tag → Int → Item
  | longInteger : Tag → Int → Item
  | enumeration : Tag → Int → Item
  | dateTime : Tag → Int → Item
  | text : Tag → List Nat → Item
  | bytes : Tag → List Nat → Item
deriving Inhabited

mutual

/-- GetLength (`types.go`): value length excluding padding; a structure's
length counts each member's header and padded length.  `nilItem` is given 0 —
on a nil member Go panics inside `GetLength`, and the encoder below fails on
the same inputs before this value could be observed. -/
def Item.getLength : Item → Nat
  | .nilItem => 0
  | .struct _ items => getLengthSum items
  | .integer _ _ => 4
  | .longInteger _ _ => 8
  | .enumeration _ _ => 4
  | .dateTime _ _ => 8
  | .text _ v => v.length
  | .bytes _ v => v.length

/-- Accumulation loop of `Structure.GetLength`: each member contributes its
8-byte header plus its padded value length. -/
def getLengthSum : List Item → Nat
  | [] => 0
  | i :: rest => 8 + RoundUpTo8 i.getLength + getLengthSum rest

end

mutual

/-- EncodeAny (`dencode.go`): serialise an item; `none` models the
`log.Panicf` on a nil input (reached through nil structure members, where Go
would already panic computing `GetLength`). -/
def EncodeAny : Item → Option (List Nat)
  | .nilItem => none
  | .struct t items =>
      match encodeList items with
      | none => none
      | some parts =>
        some (t.wire ++ [1] ++ beBytes 4 (getLengthSum items) ++ parts)
  | .integer t v =>
      some (t.wire ++ [2] ++ beBytes 4 4 ++ beBytes 4 (u32ofInt v) ++
        [0, 0, 0, 0])
  | .longInteger t v =>
      some (t.wire ++ [3] ++ beBytes 4 8 ++ beBytes 8 (u64ofInt v))
  | .enumeration t v =>
      some (t.wire ++ [5] ++ beBytes 4 4 ++ beBytes 4 (u32ofInt v) ++
        [0, 0, 0, 0])
  | .dateTime t v =>
      some (t.wire ++ [9] ++ beBytes 4 8 ++ beBytes 8 (u64ofInt v))
  | .text t v =>
      some (t.wire ++ [7] ++ beBytes 4 v.length ++ v ++
        List.replicate (RoundUpTo8 v.length - v.length) 0)
  | .bytes t v =>
      some (t.wire ++ [8] ++ beBytes 4 v.length ++ v ++
        List.replicate (RoundUpTo8 v.length - v.length) 0)

/-- Member loop of the structure case of `EncodeAny`: concatenate the member
encodings, failing if any member is nil. -/
def encodeList : List Item → Option (List Nat)
  | [] => some []
  | i :: rest =>
      match EncodeAny i, encodeList rest with
      | some e, some es => some (e ++ es)
      | _, _ => none

end

/-- Decoder errors.  `malformed` is the non-positive-length error,
`unknownType` the unknown-discriminator error; `outOfRange` models the Go
runtime panic raised by slicing a truncated buffer (the source has no guard
there); `fuelOut` is the artificial recursion bound, unreachable for the
fuel `DecodeAny` supplies.  The source wraps nested errors in prefixed
messages; the kinds are preserved here and the messages dropped. -/
inductive DecodeErr where
  | malformed : DecodeErr
  | unknownType : DecodeErr
  | outOfRange : DecodeErr
  | fuelOut : DecodeErr
deriving DecidableEq, Inhabited

/-- Loop of the structure case of `DecodeAny`: decode members one after
another until the declared value is consumed.  The decoded member is appended
even when it is nil (the end-of-buffer case of the inner decode).  The first
`Nat` is a recursion bound; every iteration consumes at least 8 bytes, so the
bound `DecodeAny` passes (buffer length + 1) is never exhausted. -/
def decodeStructLoop (dec : List Nat → Except DecodeErr (Item × Nat)) :
    Nat → List Nat → List Item → Except DecodeErr (List Item)
  | 0, _, _ => .error .fuelOut
  | fuel + 1, bs, acc =>
    match dec bs with
    | .error e => .error e
    | .ok (item, itemLength) =>
      if 8 + itemLength ≥ bs.length then .ok (acc ++ [item])
      else decodeStructLoop dec fuel (bs.drop (8 + itemLength)) (acc ++ [item])

/-- DecodeAny (`dencode.go`, first variant): decode one item from the front
of the buffer, returning it with the consumed value length.  A buffer shorter
than the 8-byte header is not an error and yields the nil item (the variant
turns `io.EOF` into a nil error).  `fuel` bounds the nesting depth. -/
def decodeAny : Nat → List Nat → Except DecodeErr (Item × Nat)
  | 0, _ => .error .fuelOut
  | fuel + 1, bs =>
    match bs with
    | b0 :: b1 :: b2 :: t :: l0 :: l1 :: l2 :: l3 :: rest =>
      let declared := int32OfU32 (beToNat [l0, l1, l2, l3])
      if declared ≤ 0 then .error .malformed
      else
        let len := declared.toNat
        let tag : Tag := ⟨b0, b1, b2⟩
        match t with
        | 5 =>
          if rest.length < 4 then .error .outOfRange
          else .ok (.enumeration tag (int32OfU32 (beToNat (rest.take 4))), 8)
        | 2 =>
          if rest.length < 4 then .error .outOfRange
          else .ok (.integer tag (int32OfU32 (beToNat (rest.take 4))), 8)
        | 3 =>
          if rest.length < 8 then .error .outOfRange
          else .ok (.longInteger tag (int64OfU64 (beToNat (rest.take 8))), 8)
        | 1 =>
          if len > rest.length then .error .outOfRange
          else
            match decodeStructLoop (decodeAny fuel) (len + 1) (rest.take len) [] with
            | .error e => .error e
            | .ok items => .ok (.struct tag items, len)
        | 7 =>
          if len > rest.length then .error .outOfRange
          else .ok (.text tag (rest.take len), RoundUpTo8 len)
        | 8 =>
          if len > rest.length then .error .outOfRange
          else .ok (.bytes tag (rest.take len), RoundUpTo8 len)
        | 9 =>
          if rest.length < 8 then .error .outOfRange
          else .ok (.dateTime tag (int64OfU64 (beToNat (rest.take 8))), 8)
        | _ => .error .unknownType
    | _ => .ok (.nilItem, 0)

/-- DecodeAny entry point: the fuel `length + 1` exceeds any nesting depth a
buffer of that length can declare (every level consumes an 8-byte header). -/
def DecodeAny (bs : List Nat) : Except DecodeErr (Item × Nat) :=
  decodeAny (bs.length + 1) bs

/-! ### Well-formedness and facts about the codec -/

/-- A tag is three genuine bytes. -/
def tagWfB (t : Tag) : Bool :=
  decide (t.b0 < 256 ∧ t.b1 < 256 ∧ t.b2 < 256)

mutual

/-- Well-formed items: the domain on which the encoder round-trips.  Nil is
excluded (encoding panics), structures are non-empty (a declared length of 0
does not decode) with a value length that fits an `int32`, integer kinds fit
their wire width, and text/bytes values are non-empty byte strings whose
length fits an `int32`. -/
def Item.wfB : Item → Bool
  | .nilItem => false
  | .struct t items => tagWfB t && !items.isEmpty && wfListB items &&
      decide (getLengthSum items < 2147483648)
  | .integer t v => tagWfB t && decide (-2147483648 ≤ v) &&
      decide (v < 2147483648)
  | .longInteger t v => tagWfB t && decide (-9223372036854775808 ≤ v) &&
      decide (v < 9223372036854775808)
  | .enumeration t v => tagWfB t && decide (-2147483648 ≤ v) &&
      decide (v < 2147483648)
  | .dateTime t v => tagWfB t && decide (-9223372036854775808 ≤ v) &&
      decide (v < 9223372036854775808)
  | .text t v => tagWfB t && !v.isEmpty && v.all (fun b => decide (b < 256)) &&
      decide (v.length < 2147483648)
  | .bytes t v => tagWfB t && !v.isEmpty && v.all (fun b => decide (b < 256)) &&
      decide (v.length < 2147483648)

/-- All members of a list are well-formed. -/
def wfListB : List Item → Bool
  | [] => true
  | i :: rest => i.wfB && wfListB rest

end

mutual

/-- Structure-nesting depth of an item; bounds the decoder fuel needed. -/
def Item.depth : Item → Nat
  | .struct _ items => 1 + depthList items
  | _ => 0

/-- Maximum depth over a member list. -/
def depthList : List Item → Nat
  | [] => 0
  | i :: rest => max i.depth (depthList rest)

end

theorem roundUpTo8_ge (n : Nat) : n ≤ RoundUpTo8 n := by
  unfold RoundUpTo8; split <;> omega

theorem roundUpTo8_mod (n : Nat) : RoundUpTo8 n % 8 = 0 := by
  unfold RoundUpTo8; split <;> omega

theorem roundUpTo8_eq_of_mod (n : Nat) (h : n % 8 = 0) : RoundUpTo8 n = n := by
  unfold RoundUpTo8; split <;> omega

theorem roundUpTo8_four : RoundUpTo8 4 = 8 := by norm_num [RoundUpTo8]

theorem roundUpTo8_eight : RoundUpTo8 8 = 8 := by norm_num [RoundUpTo8]

theorem length_beBytes (k v : Nat) : (beBytes k v).length = k := by
  induction k generalizing v with
  | zero => rfl
  | succ k ih => simp [beBytes, ih]

theorem beToNat_beBytes (k v : Nat) : beToNat (beBytes k v) = v % 256 ^ k := by
  induction k generalizing v with
  | zero => simp [beBytes, beToNat]; omega
  | succ k ih =>
    have happ : beToNat (beBytes k (v / 256) ++ [v % 256]) =
        beToNat (beBytes k (v / 256)) * 256 + v % 256 := by
      unfold beToNat
      rw [List.foldl_append]
      simp [List.foldl]
    rw [beBytes, happ, ih]
    have h2 : (256 : Nat) ^ (k + 1) = 256 * 256 ^ k := by ring
    rw [h2, Nat.mod_mul]
    ring

theorem u32ofInt_lt (v : Int) : u32ofInt v < 4294967296 := by
  unfold u32ofInt; omega

theorem u64ofInt_lt (v : Int) : u64ofInt v < 18446744073709551616 := by
  unfold u64ofInt; omega

theorem beToNat_beBytes4 (w : Nat) (h : w < 4294967296) :
    beToNat (beBytes 4 w) = w := by
  rw [beToNat_beBytes]
  have h4 : (256 : Nat) ^ 4 = 4294967296 := by norm_num
  rw [h4]
  exact Nat.mod_eq_of_lt h

theorem beToNat_beBytes8 (w : Nat) (h : w < 18446744073709551616) :
    beToNat (beBytes 8 w) = w := by
  rw [beToNat_beBytes]
  have h8 : (256 : Nat) ^ 8 = 18446744073709551616 := by norm_num
  rw [h8]
  exact Nat.mod_eq_of_lt h

theorem int32OfU32_u32ofInt (v : Int) (h1 : -2147483648 ≤ v)
    (h2 : v < 2147483648) : int32OfU32 (u32ofInt v) = v := by
  unfold int32OfU32 u32ofInt
  split <;> omega

theorem int64OfU64_u64ofInt (v : Int) (h1 : -9223372036854775808 ≤ v)
    (h2 : v < 9223372036854775808) : int64OfU64 (u64ofInt v) = v := by
  unfold int64OfU64 u64ofInt
  split <;> omega

theorem int32OfU32_small (L : Nat) (h : L < 2147483648) :
    int32OfU32 L = L := by
  unfold int32OfU32
  split <;> omega

theorem getLengthSum_mod8 (items : List Item) : getLengthSum items % 8 = 0 := by
  induction items with
  | nil => rfl
  | cons i rest ih =>
    unfold getLengthSum
    have h := roundUpTo8_mod i.getLength
    omega

theorem length_le_getLengthSum (items : List Item) :
    items.length ≤ getLengthSum items := by
  induction items with
  | nil => simp [getLengthSum]
  | cons i rest ih =>
    unfold getLengthSum
    simp only [List.length_cons]
    omega

theorem getLengthSum_pos (i : Item) (rest : List Item) :
    0 < getLengthSum (i :: rest) := by
  unfold getLengthSum
  omega

theorem exists_list_four {l : List Nat} (h : l.length = 4) :
    ∃ a b c d, l = [a, b, c, d] := by
  match l, h with
  | [a, b, c, d], _ => exact ⟨a, b, c, d, rfl⟩

theorem take_length_append (val X : List Nat) (k : Nat) (h : val.length = k) :
    (val ++ X).take k = val := by
  subst h
  exact List.take_left val X

theorem decode_step_integer (f : Nat) (tg : Tag) (v : Int)
    (h1 : -2147483648 ≤ v) (h2 : v < 2147483648) (rest : List Nat) :
    decodeAny (f + 1)
      ((tg.wire ++ [2] ++ beBytes 4 4 ++ beBytes 4 (u32ofInt v) ++
        [0, 0, 0, 0]) ++ rest) = .ok (.integer tg v, 8) := by
  obtain ⟨a, b, c, d, hval⟩ := exists_list_four (length_beBytes 4 (u32ofInt v))
  have hbv : beToNat [a, b, c, d] = u32ofInt v := by
    rw [← hval]
    exact beToNat_beBytes4 _ (u32ofInt_lt v)
  have h44 : beBytes 4 4 = [0, 0, 0, 4] := rfl
  rw [hval, h44]
  simp only [Tag.wire, List.cons_append, List.nil_append, List.append_assoc]
  simp only [decodeAny]
  norm_num
  rw [hbv, int32OfU32_u32ofInt v h1 h2]
  have h4v : int32OfU32 (beToNat [0, 0, 0, 4]) = (4 : Int) := rfl
  rw [h4v, if_neg (by norm_num), if_neg (by omega)]

theorem decode_step_enumeration (f : Nat) (tg : Tag) (v : Int)
    (h1 : -2147483648 ≤ v) (h2 : v < 2147483648) (rest : List Nat) :
    decodeAny (f + 1)
      ((tg.wire ++ [5] ++ beBytes 4 4 ++ beBytes 4 (u32ofInt v) ++
        [0, 0, 0, 0]) ++ rest) = .ok (.enumeration tg v, 8) := by
  obtain ⟨a, b, c, d, hval⟩ := exists_list_four (length_beBytes 4 (u32ofInt v))
  have hbv : beToNat [a, b, c, d] = u32ofInt v := by
    rw [← hval]
    exact beToNat_beBytes4 _ (u32ofInt_lt v)
  have h44 : beBytes 4 4 = [0, 0, 0, 4] := rfl
  rw [hval, h44]
  simp only [Tag.wire, List.cons_append, List.nil_append, List.append_assoc]
  simp only [decodeAny]
  norm_num
  rw [hbv, int32OfU32_u32ofInt v h1 h2]
  have h4v : int32OfU32 (beToNat [0, 0, 0, 4]) = (4 : Int) := rfl
  rw [h4v, if_neg (by norm_num), if_neg (by omega)]

theorem decode_step_longInteger (f : Nat) (tg : Tag) (v : Int)
    (h1 : -9223372036854775808 ≤ v) (h2 : v < 9223372036854775808)
    (rest : List Nat) :
    decodeAny (f + 1)
      ((tg.wire ++ [3] ++ beBytes 4 8 ++ beBytes 8 (u64ofInt v)) ++ rest) =
      .ok (.longInteger tg v, 8) := by
  have h48 : beBytes 4 8 = [0, 0, 0, 8] := rfl
  rw [h48]
  simp only [Tag.wire, List.cons_append, List.nil_append, List.append_assoc]
  simp only [decodeAny]
  have h8v : int32OfU32 (beToNat [0, 0, 0, 8]) = (8 : Int) := rfl
  rw [h8v, if_neg (by norm_num),
    if_neg (by simp [length_beBytes]),
    take_length_append _ rest 8 (length_beBytes 8 (u64ofInt v)),
    beToNat_beBytes8 _ (u64ofInt_lt v), int64OfU64_u64ofInt v h1 h2]

theorem decode_step_dateTime (f : Nat) (tg : Tag) (v : Int)
    (h1 : -9223372036854775808 ≤ v) (h2 : v < 9223372036854775808)
    (rest : List Nat) :
    decodeAny (f + 1)
      ((tg.wire ++ [9] ++ beBytes 4 8 ++ beBytes 8 (u64ofInt v)) ++ rest) =
      .ok (.dateTime tg v, 8) := by
  have h48 : beBytes 4 8 = [0, 0, 0, 8] := rfl
  rw [h48]
  simp only [Tag.wire, List.cons_append, List.nil_append, List.append_assoc]
  simp only [decodeAny]
  have h8v : int32OfU32 (beToNat [0, 0, 0, 8]) = (8 : Int) := rfl
  rw [h8v, if_neg (by norm_num),
    if_neg (by simp [length_beBytes]),
    take_length_append _ rest 8 (length_beBytes 8 (u64ofInt v)),
    beToNat_beBytes8 _ (u64ofInt_lt v), int64OfU64_u64ofInt v h1 h2]

theorem decode_step_text (f : Nat) (tg : Tag) (v : List Nat)
    (hne : v ≠ []) (hlt : v.length < 2147483648) (rest : List Nat) :
    decodeAny (f + 1)
      ((tg.wire ++ [7] ++ beBytes 4 v.length ++ v ++
        List.replicate (RoundUpTo8 v.length - v.length) 0) ++ rest) =
      .ok (.text tg v, RoundUpTo8 v.length) := by
  obtain ⟨a, b, c, d, hval⟩ := exists_list_four (length_beBytes 4 v.length)
  have hbv : beToNat [a, b, c, d] = v.length := by
    rw [← hval]
    exact beToNat_beBytes4 _ (by omega)
  rw [hval]
  simp only [Tag.wire, List.cons_append, List.nil_append, List.append_assoc]
  simp only [decodeAny]
  rw [hbv, int32OfU32_small _ hlt]
  have hvpos : 0 < v.length := List.length_pos.mpr hne
  rw [if_neg (by omega)]
  simp only [Int.toNat_ofNat]
  rw [if_neg (by simp only [List.length_append, List.length_replicate]; omega), take_length_append v _ v.length rfl]

theorem decode_step_bytes (f : Nat) (tg : Tag) (v : List Nat)
    (hne : v ≠ []) (hlt : v.length < 2147483648) (rest : List Nat) :
    decodeAny (f + 1)
      ((tg.wire ++ [8] ++ beBytes 4 v.length ++ v ++
        List.replicate (RoundUpTo8 v.length - v.length) 0) ++ rest) =
      .ok (.bytes tg v, RoundUpTo8 v.length) := by
  obtain ⟨a, b, c, d, hval⟩ := exists_list_four (length_beBytes 4 v.length)
  have hbv : beToNat [a, b, c, d] = v.length := by
    rw [← hval]
    exact beToNat_beBytes4 _ (by omega)
  rw [hval]
  simp only [Tag.wire, List.cons_append, List.nil_append, List.append_assoc]
  simp only [decodeAny]
  rw [hbv, int32OfU32_small _ hlt]
  have hvpos : 0 < v.length := List.length_pos.mpr hne
  rw [if_neg (by omega)]
  simp only [Int.toNat_ofNat]
  rw [if_neg (by simp only [List.length_append, List.length_replicate]; omega), take_length_append v _ v.length rfl]

theorem decode_step_struct (f : Nat) (tg : Tag) (items : List Item)
    (parts : List Nat) (hplen : parts.length = getLengthSum items)
    (hpos : 0 < getLengthSum items) (hlt : getLengthSum items < 2147483648)
    (hloop : decodeStructLoop (decodeAny f) (getLengthSum items + 1) parts [] =
      .ok items) (rest : List Nat) :
    decodeAny (f + 1)
      ((tg.wire ++ [1] ++ beBytes 4 (getLengthSum items) ++ parts) ++ rest) =
      .ok (.struct tg items, getLengthSum items) := by
  obtain ⟨a, b, c, d, hval⟩ :=
    exists_list_four (length_beBytes 4 (getLengthSum items))
  have hbv : beToNat [a, b, c, d] = getLengthSum items := by
    rw [← hval]
    exact beToNat_beBytes4 _ (by omega)
  rw [hval]
  simp only [Tag.wire, List.cons_append, List.nil_append, List.append_assoc]
  simp only [decodeAny]
  rw [hbv, int32OfU32_small _ hlt, if_neg (by omega)]
  simp only [Int.toNat_ofNat]
  rw [if_neg (by simp only [List.length_append]; omega), take_length_append parts _ _ hplen, hloop]

theorem depth_le_of_mem {i : Item} {items : List Item} (h : i ∈ items) :
    i.depth ≤ depthList items := by
  induction items with
  | nil => cases h
  | cons j rest ih =>
    unfold depthList
    rcases List.mem_cons.1 h with rfl | h2
    · exact le_max_left _ _
    · exact le_trans (ih h2) (le_max_right _ _)

mutual

theorem depth_le_getLength (x : Item) (hwf : x.wfB = true) :
    x.depth ≤ x.getLength := by
  cases x with
  | struct t items =>
    simp only [Item.wfB, Bool.and_eq_true, decide_eq_true_eq] at hwf
    obtain ⟨⟨⟨htag, hne2⟩, hwfl⟩, hlt⟩ := hwf
    have hne3 : items ≠ [] := by simpa [List.isEmpty_iff] using hne2
    have h := depthList_lt_getLengthSum items hwfl hne3
    show 1 + depthList items ≤ getLengthSum items
    omega
  | nilItem => simp [Item.wfB] at hwf
  | integer t v => simp [Item.depth, Item.getLength]
  | longInteger t v => simp [Item.depth, Item.getLength]
  | enumeration t v => simp [Item.depth, Item.getLength]
  | dateTime t v => simp [Item.depth, Item.getLength]
  | text t v => simp [Item.depth]
  | bytes t v => simp [Item.depth]

theorem depthList_lt_getLengthSum (items : List Item)
    (hwf : wfListB items = true) (hne : items ≠ []) :
    1 + depthList items ≤ getLengthSum items := by
  cases items with
  | nil => exact absurd rfl hne
  | cons i tail =>
    simp only [wfListB, Bool.and_eq_true] at hwf
    obtain ⟨hwfi, hwft⟩ := hwf
    have hi := depth_le_getLength i hwfi
    have hru := roundUpTo8_ge i.getLength
    show 1 + max i.depth (depthList tail) ≤
      8 + RoundUpTo8 i.getLength + getLengthSum tail
    cases tail with
    | nil =>
      simp only [depthList]
      omega
    | cons j tail2 =>
      have ht := depthList_lt_getLengthSum (j :: tail2) hwft (by simp)
      omega

end

theorem encodeList_cons (i : Item) (rest : List Item) :
    encodeList (i :: rest) =
      match EncodeAny i, encodeList rest with
      | some e, some es => some (e ++ es)
      | _, _ => none := by
  rw [encodeList]

mutual

theorem decodeAny_encodeAny (x : Item) (hwf : x.wfB = true) :
    ∃ bs, EncodeAny x = some bs ∧ bs.length = 8 + RoundUpTo8 x.getLength ∧
      ∀ fuel, x.depth < fuel → ∀ rest,
        decodeAny fuel (bs ++ rest) = .ok (x, RoundUpTo8 x.getLength) := by
  cases x with
  | nilItem => simp [Item.wfB] at hwf
  | integer t v =>
    simp only [Item.wfB, Bool.and_eq_true, decide_eq_true_eq] at hwf
    obtain ⟨⟨htag, h1⟩, h2⟩ := hwf
    have hg : (Item.integer t v).getLength = 4 := rfl
    refine ⟨_, rfl, ?_, ?_⟩
    · rw [hg, roundUpTo8_four]
      simp [Tag.wire, length_beBytes]
    · intro fuel hfuel rest
      obtain ⟨f, rfl⟩ : ∃ f, fuel = f + 1 := ⟨fuel - 1, by omega⟩
      rw [hg, roundUpTo8_four]
      exact decode_step_integer f t v h1 h2 rest
  | enumeration t v =>
    simp only [Item.wfB, Bool.and_eq_true, decide_eq_true_eq] at hwf
    obtain ⟨⟨htag, h1⟩, h2⟩ := hwf
    have hg : (Item.enumeration t v).getLength = 4 := rfl
    refine ⟨_, rfl, ?_, ?_⟩
    · rw [hg, roundUpTo8_four]
      simp [Tag.wire, length_beBytes]
    · intro fuel hfuel rest
      obtain ⟨f, rfl⟩ : ∃ f, fuel = f + 1 := ⟨fuel - 1, by omega⟩
      rw [hg, roundUpTo8_four]
      exact decode_step_enumeration f t v h1 h2 rest
  | longInteger t v =>
    simp only [Item.wfB, Bool.and_eq_true, decide_eq_true_eq] at hwf
    obtain ⟨⟨htag, h1⟩, h2⟩ := hwf
    have hg : (Item.longInteger t v).getLength = 8 := rfl
    refine ⟨_, rfl, ?_, ?_⟩
    · rw [hg, roundUpTo8_eight]
      simp [Tag.wire, length_beBytes]
    · intro fuel hfuel rest
      obtain ⟨f, rfl⟩ : ∃ f, fuel = f + 1 := ⟨fuel - 1, by omega⟩
      rw [hg, roundUpTo8_eight]
      exact decode_step_longInteger f t v h1 h2 rest
  | dateTime t v =>
    simp only [Item.wfB, Bool.and_eq_true, decide_eq_true_eq] at hwf
    obtain ⟨⟨htag, h1⟩, h2⟩ := hwf
    have hg : (Item.dateTime t v).getLength = 8 := rfl
    refine ⟨_, rfl, ?_, ?_⟩
    · rw [hg, roundUpTo8_eight]
      simp [Tag.wire, length_beBytes]
    · intro fuel hfuel rest
      obtain ⟨f, rfl⟩ : ∃ f, fuel = f + 1 := ⟨fuel - 1, by omega⟩
      rw [hg, roundUpTo8_eight]
      exact decode_step_dateTime f t v h1 h2 rest
  | text t v =>
    simp only [Item.wfB, Bool.and_eq_true, decide_eq_true_eq] at hwf
    obtain ⟨⟨⟨htag, hne2⟩, hall⟩, hlt⟩ := hwf
    have hne3 : v ≠ [] := by simpa [List.isEmpty_iff] using hne2
    have hg : (Item.text t v).getLength = v.length := rfl
    refine ⟨_, rfl, ?_, ?_⟩
    · rw [hg]
      have := roundUpTo8_ge v.length
      simp [Tag.wire, length_beBytes]
      omega
    · intro fuel hfuel rest
      obtain ⟨f, rfl⟩ : ∃ f, fuel = f + 1 := ⟨fuel - 1, by omega⟩
      rw [hg]
      exact decode_step_text f t v hne3 hlt rest
  | bytes t v =>
    simp only [Item.wfB, Bool.and_eq_true, decide_eq_true_eq] at hwf
    obtain ⟨⟨⟨htag, hne2⟩, hall⟩, hlt⟩ := hwf
    have hne3 : v ≠ [] := by simpa [List.isEmpty_iff] using hne2
    have hg : (Item.bytes t v).getLength = v.length := rfl
    refine ⟨_, rfl, ?_, ?_⟩
    · rw [hg]
      have := roundUpTo8_ge v.length
      simp [Tag.wire, length_beBytes]
      omega
    · intro fuel hfuel rest
      obtain ⟨f, rfl⟩ : ∃ f, fuel = f + 1 := ⟨fuel - 1, by omega⟩
      rw [hg]
      exact decode_step_bytes f t v hne3 hlt rest
  | struct t items =>
    simp only [Item.wfB, Bool.and_eq_true, decide_eq_true_eq] at hwf
    obtain ⟨⟨⟨htag, hne2⟩, hwfl⟩, hlt⟩ := hwf
    have hne3 : items ≠ [] := by simpa [List.isEmpty_iff] using hne2
    obtain ⟨parts, hpe, hplen, hloop⟩ := decodeLoop_encodeList items hwfl hne3
    have hru : RoundUpTo8 (getLengthSum items) = getLengthSum items :=
      roundUpTo8_eq_of_mod _ (getLengthSum_mod8 items)
    have hpos : 0 < getLengthSum items := by
      cases items with
      | nil => exact absurd rfl hne3
      | cons i r => exact getLengthSum_pos i r
    refine ⟨t.wire ++ [1] ++ beBytes 4 (getLengthSum items) ++ parts, ?_, ?_, ?_⟩
    · show EncodeAny (.struct t items) = _
      simp only [EncodeAny, hpe]
    · show _ = 8 + RoundUpTo8 (getLengthSum items)
      rw [hru]
      simp [Tag.wire, length_beBytes, hplen]
      omega
    · intro fuel hfuel rest
      obtain ⟨f, rfl⟩ : ∃ f, fuel = f + 1 := ⟨fuel - 1, by omega⟩
      have hfuel2 : ∀ i ∈ items, i.depth < f := by
        intro i hi
        have h1 := depth_le_of_mem hi
        have h2 : (Item.struct t items).depth = 1 + depthList items := rfl
        omega
      have hloop2 := hloop f hfuel2 (getLengthSum items + 1)
        (by have := length_le_getLengthSum items; omega) []
      have hstep := decode_step_struct f t items parts hplen hpos hlt
        (by simpa using hloop2) rest
      show decodeAny (f + 1) _ = .ok (.struct t items, RoundUpTo8 (getLengthSum items))
      rw [hru]
      exact hstep

theorem decodeLoop_encodeList (items : List Item) (hwf : wfListB items = true)
    (hne : items ≠ []) :
    ∃ parts, encodeList items = some parts ∧
      parts.length = getLengthSum items ∧
      ∀ fuel, (∀ i ∈ items, i.depth < fuel) →
      ∀ lfuel, items.length < lfuel → ∀ acc,
        decodeStructLoop (decodeAny fuel) lfuel parts acc = .ok (acc ++ items) := by
  cases items with
  | nil => exact absurd rfl hne
  | cons i tail =>
    simp only [wfListB, Bool.and_eq_true] at hwf
    obtain ⟨hwfi, hwft⟩ := hwf
    obtain ⟨e, hee, helen, hedec⟩ := decodeAny_encodeAny i hwfi
    cases tail with
    | nil =>
      refine ⟨e, ?_, ?_, ?_⟩
      · rw [encodeList_cons, hee]
        simp [encodeList]
      · rw [helen]
        show _ = 8 + RoundUpTo8 i.getLength + getLengthSum []
        simp [getLengthSum]
      · intro fuel hfuel lfuel hlf acc
        obtain ⟨lf, rfl⟩ : ∃ lf, lfuel = lf + 1 := ⟨lfuel - 1, by omega⟩
        have hd := hedec fuel (hfuel i (List.mem_cons_self i [])) []
        rw [List.append_nil] at hd
        simp only [decodeStructLoop, hd]
        rw [if_pos (by omega)]
    | cons j tail2 =>
      obtain ⟨es, hese, heslen, hloop⟩ := decodeLoop_encodeList (j :: tail2)
        hwft (by simp)
      have hespos : 0 < es.length := by
        rw [heslen]
        exact getLengthSum_pos j tail2
      refine ⟨e ++ es, ?_, ?_, ?_⟩
      · rw [encodeList_cons, hee, hese]
      · show _ = 8 + RoundUpTo8 i.getLength + getLengthSum (j :: tail2)
        simp [helen, heslen]
      · intro fuel hfuel lfuel hlf acc
        obtain ⟨lf, rfl⟩ : ∃ lf, lfuel = lf + 1 := ⟨lfuel - 1, by omega⟩
        have hd := hedec fuel (hfuel i (List.mem_cons_self i _)) es
        simp only [decodeStructLoop, hd]
        rw [if_neg (by simp only [List.length_append]; omega)]
        rw [show (e ++ es).drop (8 + RoundUpTo8 i.getLength) = es from by
          rw [← helen]; exact List.drop_left e es]
        have hrec := hloop fuel
          (fun i2 hi2 => hfuel i2 (List.mem_cons_of_mem _ hi2)) lf
          (by
            have h1 : (i :: j :: tail2).length = (j :: tail2).length + 1 := rfl
            omega) (acc ++ [i])
        rw [hrec]
        simp

end

/-- C3: TTLV round-trip.  For every well-formed item of the supported kinds
(structure with well-formed members, integer, long integer, enumeration,
date-time, text, bytes — well-formed meaning: no nil members, non-empty
structures and strings, values and lengths within their wire widths),
`EncodeAny` produces a byte string and `DecodeAny` maps it back to the very
same item, together with the consumed (padded) value length. -/
theorem ttlv_roundtrip_c3 (x : Item) (hwf : x.wfB = true) :
    ∃ bs, EncodeAny x = some bs ∧
      DecodeAny bs = .ok (x, RoundUpTo8 x.getLength) := by
  obtain ⟨bs, he, hlen, hdec⟩ := decodeAny_encodeAny x hwf
  refine ⟨bs, he, ?_⟩
  have hdepth := depth_le_getLength x hwf
  have hru := roundUpTo8_ge x.getLength
  have h := hdec (bs.length + 1) (by omega) []
  rw [List.append_nil] at h
  exact h

/-- Sample item for the round-trip witness: a nested structure with all six
value kinds, tagged with the KMIP request tags. -/
def sampleItemC3 : Item :=
  .struct ⟨66, 0, 120⟩
    [.integer ⟨66, 0, 106⟩ 1,
     .text ⟨66, 0, 153⟩ [104, 105, 33],
     .struct ⟨66, 0, 121⟩
       [.enumeration ⟨66, 0, 92⟩ 20,
        .dateTime ⟨66, 0, 146⟩ 1496225983,
        .longInteger ⟨1, 2, 3⟩ (-5),
        .bytes ⟨4, 5, 6⟩ [1, 2, 3, 4, 5, 6, 7, 8, 9]]]

/-- Witness for the round-trip theorem at `sampleItemC3`. -/
theorem ttlv_roundtrip_c3_witness :
    sampleItemC3.wfB = true ∧
    ∃ bs, EncodeAny sampleItemC3 = some bs ∧
      DecodeAny bs = .ok (sampleItemC3, RoundUpTo8 sampleItemC3.getLength) :=
  ⟨rfl, ttlv_roundtrip_c3 sampleItemC3 rfl⟩

/-- C5 counterexample: on the empty buffer — and on any buffer shorter than
the 8-byte header — `DecodeAny` does not fail with a Malformed error as the
claim states: the first variant of `dencode.go` turns the header reader's
`io.EOF` into a nil error, returning a nil item with no error at all. -/
theorem decode_short_buffer_c5_counterexample :
    DecodeAny [] = .ok (.nilItem, 0) ∧
    DecodeAny [66, 0, 120, 1] = .ok (.nilItem, 0) := ⟨rfl, rfl⟩

/-- C5 amended: on a buffer shorter than the 8-byte header `DecodeAny`
returns the nil item with a nil error (it does not fail); with a full header
it fails with the Malformed error exactly when the declared length is
non-positive, with the UnknownType error when the length is positive but the
type discriminator is not among the seven supported ones, and on a truncated
buffer it does not return a Malformed error but runs into an out-of-range
slice access (a runtime panic in Go, shown here for the integer kind).
Errors never come with a decoded item (the result is a sum). -/
theorem decode_errors_c5_amended (bs : List Nat) :
    (bs.length < 8 → DecodeAny bs = .ok (.nilItem, 0)) ∧
    (∀ b0 b1 b2 t l0 l1 l2 l3 tail,
      bs = b0 :: b1 :: b2 :: t :: l0 :: l1 :: l2 :: l3 :: tail →
      (int32OfU32 (beToNat [l0, l1, l2, l3]) ≤ 0 →
        DecodeAny bs = .error .malformed) ∧
      (0 < int32OfU32 (beToNat [l0, l1, l2, l3]) →
        t ∉ ([1, 2, 3, 5, 7, 8, 9] : List Nat) →
        DecodeAny bs = .error .unknownType) ∧
      (0 < int32OfU32 (beToNat [l0, l1, l2, l3]) → t = 2 → tail.length < 4 →
        DecodeAny bs = .error .outOfRange)) := by
  constructor
  · intro h
    match bs, h with
    | [], _ => rfl
    | [_], _ => rfl
    | [_, _], _ => rfl
    | [_, _, _], _ => rfl
    | [_, _, _, _], _ => rfl
    | [_, _, _, _, _], _ => rfl
    | [_, _, _, _, _, _], _ => rfl
    | [_, _, _, _, _, _, _], _ => rfl
  · rintro b0 b1 b2 t l0 l1 l2 l3 tail rfl
    refine ⟨?_, ?_, ?_⟩
    · intro hle
      unfold DecodeAny
      simp only [decodeAny]
      rw [if_pos hle]
    · intro hpos hmem
      unfold DecodeAny
      simp only [decodeAny]
      rw [if_neg (by omega)]
      simp only [List.mem_cons, List.not_mem_nil, or_false, not_or] at hmem
      obtain ⟨h1, h2, h3, h5, h7, h8, h9⟩ := hmem
      split
      · exact absurd rfl h5
      · exact absurd rfl h2
      · exact absurd rfl h3
      · exact absurd rfl h1
      · exact absurd rfl h7
      · exact absurd rfl h8
      · exact absurd rfl h9
      · rfl
    · rintro hpos rfl hshort
      unfold DecodeAny
      simp only [decodeAny]
      rw [if_neg (by omega), if_pos hshort]

/-- Witness for the amended decode-error theorem: each conjunct applied at a
concrete buffer. -/
theorem decode_errors_c5_amended_witness :
    DecodeAny [66] = .ok (.nilItem, 0) ∧
    DecodeAny [1, 1, 1, 2, 255, 255, 255, 255, 0, 0, 0, 0] =
      .error .malformed ∧
    DecodeAny [1, 1, 1, 4, 0, 0, 0, 4, 0, 0, 0, 0, 0, 0, 0, 0] =
      .error .unknownType ∧
    DecodeAny [1, 1, 1, 2, 0, 0, 0, 4] = .error .outOfRange := by
  refine ⟨(decode_errors_c5_amended [66]).1 (by norm_num), ?_, ?_, ?_⟩
  · exact ((decode_errors_c5_amended _).2 1 1 1 2 255 255 255 255
      [0, 0, 0, 0] rfl).1 (by decide)
  · exact (((decode_errors_c5_amended _).2 1 1 1 4 0 0 0 4
      [0, 0, 0, 0, 0, 0, 0, 0] rfl).2).1 (by decide) (by decide)
  · exact (((decode_errors_c5_amended _).2 1 1 1 2 0 0 0 4
      [] rfl).2).2 (by decide) rfl (by decide)

end Ttlv

namespace Keyserv

open Ttlv

/-! ## KMIP client read path and destroy handling (`keyserv/kmip_client.go`) -/

/-- MaxKMIPStructLen (`keyserv/kmip_client.go`). -/
def MaxKMIPStructLen : Nat := 65536

/-- Errors of `ReadFullTTLV`: a read against an exhausted stream surfaces
`io.EOF`; decode errors pass through. -/
inductive ReadErr where
  | eof : ReadErr
  | decode : DecodeErr → ReadErr
deriving DecidableEq

/-- ReadFullTTLV (`keyserv/kmip_client.go`; both copies in the file agree):
read an 8-byte header, parse the declared length, refuse lengths outside
`[1, 65536]`, read the declared number of value bytes, and decode the
reassembled buffer.  The reader is the byte stream still available on the
connection, with `bytes.Reader` semantics: a read returns min(want,
available) bytes — the source ignores the count for the header read and
accepts any non-EOF count for the value read, leaving unread buffer suffixes
zero — and fails only when nothing is available.  On an out-of-bounds
declared length the source runs `return nil, err` where `err` is the nil
error of the successful header parse, so the caller receives a nil item and
a nil error: modelled as `.ok .nilItem`. -/
def ReadFullTTLV (stream : List Nat) : Except ReadErr Item :=
  if stream.isEmpty then .error .eof
  else
    let ttlHeader := stream.take 8 ++ List.replicate (8 - stream.length) 0
    let structLen : Int := int32OfU32 (beToNat (ttlHeader.drop 4))
    if structLen < 1 ∨ structLen > (MaxKMIPStructLen : Int) then .ok .nilItem
    else
      if (stream.drop 8).isEmpty then .error .eof
      else
        let ttlValue := (stream.drop 8).take structLen.toNat ++
          List.replicate (structLen.toNat - (stream.drop 8).length) 0
        let fullTTLV := ttlHeader ++ ttlValue
        match DecodeAny fullTTLV with
        | .ok (item, _) => .ok item
        | .error e => .error (.decode e)

/-- C4 counterexample: a header declaring length 65537 (greater than the
65536 cap).  `ReadFullTTLV` refuses the input — no decoded item — but it
returns a nil error rather than the Malformed error the claim states: the
guard `return nil, err` propagates the nil error of the header parse. -/
theorem readFullTTLV_bound_c4_counterexample :
    ReadFullTTLV [66, 0, 120, 1, 0, 1, 0, 1] = .ok .nilItem := rfl

/-- C4 amended: for every input whose 8-byte header declares a length
greater than 65,536, `ReadFullTTLV` produces no decoded item — the nil item
is returned and the TTLV decoder is never invoked — but the accompanying
error is nil, not Malformed (the declared-length guard returns the nil error
left over from the successful header parse; declared lengths below 1 behave
the same way). -/
theorem readFullTTLV_bound_c4_amended (stream : List Nat)
    (h8 : 8 ≤ stream.length)
    (hbig : (MaxKMIPStructLen : Int) <
      int32OfU32 (beToNat ((stream.take 8).drop 4))) :
    ReadFullTTLV stream = .ok .nilItem := by
  unfold ReadFullTTLV
  rw [if_neg (by
    simp only [List.isEmpty_iff]
    intro he
    rw [he] at h8
    simp at h8)]
  have hrep : List.replicate (8 - stream.length) (0 : Nat) = [] := by
    have : 8 - stream.length = 0 := by omega
    rw [this, List.replicate_zero]
  simp only [hrep, List.append_nil]
  rw [if_pos (Or.inr hbig)]

/-- Witness for the amended C4 theorem: a 10-byte stream declaring length
131072. -/
theorem readFullTTLV_bound_c4_amended_witness :
    8 ≤ ([66, 0, 120, 1, 0, 2, 0, 0, 9, 9] : List Nat).length ∧
    (MaxKMIPStructLen : Int) <
      int32OfU32 (beToNat ((([66, 0, 120, 1, 0, 2, 0, 0, 9, 9] :
        List Nat).take 8).drop 4)) ∧
    ReadFullTTLV [66, 0, 120, 1, 0, 2, 0, 0, 9, 9] = .ok .nilItem :=
  ⟨by norm_num, by decide,
   readFullTTLV_bound_c4_amended _ (by norm_num) (by decide)⟩

/-- Result-status Success (`kmip/structure/const.go`). -/
def ValResultStatusSuccess : Int := 0

/-- Result-reason NotFound (`kmip/structure/const.go`). -/
def ValResultReasonNotFound : Int := 1

/-- The fields of a KMIP response batch item that decide error handling
(`SResponseBatchItem` in `kmip/structure`). -/
structure SResponseBatchItem where
  EResultStatus : Int
  EResultReason : Int
deriving DecidableEq

/-- ResponseItemToError (`keyserv/kmip_client.go`): nil exactly when the
response status is Success; otherwise an error carrying status, reason and
message (the message text is immaterial here). -/
def ResponseItemToError (resp : SResponseBatchItem) : Option String :=
  if resp.EResultStatus = ValResultStatusSuccess then none
  else some "KMIP response error"

/-- DestroyKey response handling of the single-host client (first copy in
`keyserv/kmip_client.go`): "Not found is not an error" — nil when the
result reason is NotFound or the status is Success. -/
def destroyKeyOutcomeSingle (resp : SResponseBatchItem) : Option String :=
  if resp.EResultReason = ValResultReasonNotFound ∨
      resp.EResultStatus = ValResultStatusSuccess then none
  else ResponseItemToError resp

/-- DestroyKey response handling of the retrying multi-endpoint client (the
second copy, the one the RPC server constructs): plain
`ResponseItemToError`, with no NotFound special case. -/
def destroyKeyOutcomeRetry (resp : SResponseBatchItem) : Option String :=
  ResponseItemToError resp

/-- C6 counterexample: a destroy response with status Failed (1) and reason
NotFound (1).  The retrying client's `DestroyKey` — the variant the RPC
server uses, and the behaviour the package's own tests assert for
`DestroyKey("does not exist")` — returns an error, not the success the
claim states, while a response with status Success returns none. -/
theorem destroyKey_notFound_c6_counterexample :
    destroyKeyOutcomeRetry ⟨1, 1⟩ ≠ none ∧
    destroyKeyOutcomeRetry ⟨0, 0⟩ = none := by
  decide

/-- C6 amended: only the single-host client's `DestroyKey` treats NotFound
as success (nil exactly when the reason is NotFound or the status Success);
the retrying multi-endpoint client's `DestroyKey` succeeds exactly when the
result status is Success, returning an error for a NotFound failure — which
is what the package's tests expect when destroying an absent key. -/
theorem destroyKey_notFound_c6_amended (resp : SResponseBatchItem) :
    (destroyKeyOutcomeSingle resp = none ↔
      (resp.EResultReason = ValResultReasonNotFound ∨
       resp.EResultStatus = ValResultStatusSuccess)) ∧
    (destroyKeyOutcomeRetry resp = none ↔
      resp.EResultStatus = ValResultStatusSuccess) := by
  unfold destroyKeyOutcomeSingle destroyKeyOutcomeRetry ResponseItemToError
  constructor
  · split_ifs with h1 h2 <;> simp_all
  · split_ifs with h1 <;> simp_all

/-! ## The EraseKey RPC (`keyserv/rpc_svc.go`) -/

/-- Modelled from the spec: the dual-index key database the RPC server uses
(`KeyDB` with `RecordsByUUID` and `RecordsByID`, `GetByUUID`, `GetByID`,
`Erase`).  Its source file is not under src — only its tests and its callers
are — so it is modelled from spec §3.2/§4.3: at most one record per uuid and
per id with the two indexes in sync, represented as one record list with
derived lookups. -/
structure KeyDB where
  records : List Keydb.Record
deriving DecidableEq

/-- GetByUUID of the dual-index database (present in the db tests). -/
def KeyDB.GetByUUID (db : KeyDB) (uuid : String) : Option Keydb.Record :=
  db.records.find? fun r => r.UUID == uuid

/-- GetByID of the dual-index database (present in the db tests). -/
def KeyDB.GetByID (db : KeyDB) (id : String) : Option Keydb.Record :=
  db.records.find? fun r => r.ID == id

/-- Modelled from the spec: Erase removes the record from both indexes; a
missing uuid is an error, as in the `Erase` of the src database variant. -/
def KeyDB.Erase (db : KeyDB) (uuid : String) : Option String × KeyDB :=
  if (db.GetByUUID uuid).isSome then
    (none, ⟨db.records.filter fun r => !(r.UUID == uuid)⟩)
  else (some "record does not exist", db)

/-- Side effects the EraseKey handler requests from its collaborators, in
order. -/
inductive EraseAction where
  | kmipDestroy : String → EraseAction
  | dbErase : String → EraseAction
deriving DecidableEq

/-- EraseKey (`keyserv/rpc_svc.go`): check the password; a uuid absent from
the database is a no-op success; otherwise ask the KMIP backend to destroy
the key material under the record's KMIP id and then erase the database
record, and when the database erase succeeded but the backend failed return
a compound error (otherwise the database result).  The KMIP client is
abstracted by `kmipDestroy`, the backend's answer per key id; the returned
action list records the side effects in order. -/
def EraseKey (validPass : Bool) (kmipDestroy : String → Option String)
    (db : KeyDB) (uuid : String) :
    Option String × KeyDB × List EraseAction :=
  if !validPass then (some "incorrect password", db, [])
  else
    match db.GetByUUID uuid with
    | none => (none, db, [])
    | some rec =>
      let kmipErr := kmipDestroy rec.ID
      let r2 := db.Erase uuid
      let actions := [.kmipDestroy rec.ID, .dbErase uuid]
      if r2.1 = none ∧ kmipErr ≠ none then
        (some "EraseKey: record erased from database but KMIP did not erase it",
         r2.2, actions)
      else (r2.1, r2.2, actions)

/-- C7: with a correct password, EraseKey asks the backend to destroy the
key material first and erases the database record second; a uuid absent from
the database yields success with no side effect, so a second EraseKey on the
same uuid also succeeds; after an erase the record is gone from both
indexes; and when the database erase succeeds while the backend destroy
fails, the compound error is returned.  The hypothesis is the spec invariant
that at most one record carries the erased record's sequence id. -/
theorem eraseKey_c7 (kmipDestroy : String → Option String) (db : KeyDB)
    (uuid : String)
    (hid : ∀ rec, db.GetByUUID uuid = some rec →
      ∀ r ∈ db.records, r.ID = rec.ID → r.UUID = uuid) :
    (db.GetByUUID uuid = none →
      EraseKey true kmipDestroy db uuid = (none, db, [])) ∧
    (∀ rec, db.GetByUUID uuid = some rec →
      (EraseKey true kmipDestroy db uuid).2.2 =
        [.kmipDestroy rec.ID, .dbErase uuid] ∧
      ((EraseKey true kmipDestroy db uuid).2.1).GetByUUID uuid = none ∧
      ((EraseKey true kmipDestroy db uuid).2.1).GetByID rec.ID = none ∧
      (EraseKey true kmipDestroy db uuid).1 =
        (if kmipDestroy rec.ID = none then none
         else some
          "EraseKey: record erased from database but KMIP did not erase it") ∧
      EraseKey true kmipDestroy ((EraseKey true kmipDestroy db uuid).2.1)
          uuid =
        (none, (EraseKey true kmipDestroy db uuid).2.1, [])) := by
  constructor
  · intro habs
    simp [EraseKey, habs]
  · intro rec hrec
    have hsome : (db.GetByUUID uuid).isSome := by rw [hrec]; rfl
    have herase : db.Erase uuid =
        (none, ⟨db.records.filter fun r => !(r.UUID == uuid)⟩) := by
      unfold KeyDB.Erase
      rw [if_pos hsome]
    have hget2 : (KeyDB.mk (db.records.filter fun r =>
        !(r.UUID == uuid))).GetByUUID uuid = none := by
      unfold KeyDB.GetByUUID
      rw [List.find?_eq_none]
      intro r hr
      have := (List.mem_filter.mp hr).2
      simpa using this
    have hmain : EraseKey true kmipDestroy db uuid =
        (if kmipDestroy rec.ID = none then none
         else some
          "EraseKey: record erased from database but KMIP did not erase it",
         ⟨db.records.filter fun r => !(r.UUID == uuid)⟩,
         [.kmipDestroy rec.ID, .dbErase uuid]) := by
      unfold EraseKey
      rw [Bool.not_true, if_neg (by simp), hrec]
      simp only [herase]
      by_cases hk : kmipDestroy rec.ID = none
      · rw [if_neg (by simp [hk]), if_pos hk]
      · rw [if_pos (by simp [hk]), if_neg hk]
    refine ⟨by rw [hmain], by rw [hmain]; exact hget2, ?_, by rw [hmain], ?_⟩
    · rw [hmain]
      show (KeyDB.mk _).GetByID rec.ID = none
      unfold KeyDB.GetByID
      rw [List.find?_eq_none]
      intro r hr
      obtain ⟨hmem, hne⟩ := List.mem_filter.mp hr
      simp only [Bool.not_eq_true', beq_eq_false_iff_ne, ne_eq] at hne
      intro heq
      exact hne (hid rec hrec r hmem (by simpa using heq))
    · rw [hmain]
      simp only [EraseKey, Bool.not_true, Bool.false_eq_true, if_neg
        (by simp : ¬(false = true))]
      rw [hget2]
      simp

/-- Records for the C7 witness. -/
def dbW7 : KeyDB :=
  ⟨[{ Keydb.recC8a with UUID := "aaaa", ID := "7" },
    { Keydb.recC8a with UUID := "bbbb", ID := "8" }]⟩

/-- Witness for the EraseKey theorem: erase "aaaa" against a backend that
reports a failure for every id, observing the compound error, the
destroy-then-erase order, the emptied indexes, and the success of the second
call. -/
theorem eraseKey_c7_witness :
    dbW7.GetByUUID "aaaa" =
      some { Keydb.recC8a with UUID := "aaaa", ID := "7" } ∧
    (EraseKey true (fun _ => some "backend failure") dbW7 "aaaa").2.2 =
      [.kmipDestroy "7", .dbErase "aaaa"] ∧
    ((EraseKey true (fun _ => some "backend failure") dbW7 "aaaa").2.1
      ).GetByUUID "aaaa" = none ∧
    ((EraseKey true (fun _ => some "backend failure") dbW7 "aaaa").2.1
      ).GetByID "7" = none ∧
    (EraseKey true (fun _ => some "backend failure") dbW7 "aaaa").1 =
      (if (fun (_ : String) => some "backend failure") "7" = none then none
       else some
        "EraseKey: record erased from database but KMIP did not erase it") ∧
    EraseKey true (fun _ => some "backend failure")
        ((EraseKey true (fun _ => some "backend failure") dbW7 "aaaa").2.1)
        "aaaa" =
      (none,
       (EraseKey true (fun _ => some "backend failure") dbW7 "aaaa").2.1,
       []) := by
  have h := (eraseKey_c7 (fun _ => some "backend failure") dbW7 "aaaa"
    (by
      intro rec hrec r hr hid2
      have hrec2 : rec = { Keydb.recC8a with UUID := "aaaa", ID := "7" } := by
        simpa [KeyDB.GetByUUID, dbW7, List.find?] using hrec.symm
      subst hrec2
      simp only [dbW7] at hr
      rcases List.mem_cons.mp hr with rfl | hr2
      · rfl
      · rcases List.mem_cons.mp hr2 with rfl | hr3
        · simp at hid2
        · simp at hr3)).2
    { Keydb.recC8a with UUID := "aaaa", ID := "7" } rfl
  exact ⟨rfl, h.1, h.2.1, h.2.2.1, h.2.2.2.1, h.2.2.2.2⟩

end Keyserv
